import Mathlib

set_option maxRecDepth 16384

/-!
Verification development for the snarl decomposition manager and net graph
of src/src/snarls.cpp. Snarl records, the manager with its four derived
indexes, the chain walker, content enumeration and the net graph
follow_edges operation are embedded as executable Lean definitions;
pointers into the snarl store are modelled as list indices, and the
unordered_map indexes are modelled as association lists with
overwrite-on-insert semantics.
-/

/-- Node id with orientation: the protobuf Visit message as used for the
boundaries of a snarl (start and end fields). -/
structure Side where
  node_id : Int
  backward : Bool
deriving DecidableEq, Repr

/-- Boundary pair of a snarl as carried inside a Visit message after
transfer_boundary_info: only the start and end fields are populated. -/
structure SnarlBd where
  start_ : Side
  end_ : Side
deriving DecidableEq, Repr

/-- A stored snarl record (protobuf Snarl). The type tag and the three
connectivity summaries are omitted: none of the operations verified here
reads them. The parent field keeps only the boundary pair, which is all
that key_form reads from it. -/
structure SnarlRec where
  start_ : Side
  end_ : Side
  parent : Option SnarlBd := none
deriving DecidableEq, Repr

/-- Default record used to model dereferencing; reachable code never hits
the default because stored indices are in range. -/
def dfltRec : SnarlRec := { start_ := ⟨0, false⟩, end_ := ⟨0, false⟩ }

/-- Protobuf Visit: a node visit has a nonzero node_id, a snarl visit has
the snarl field set and node_id zero. -/
structure Visit where
  node_id : Int := 0
  snarl : Option SnarlBd := none
  backward : Bool := false
deriving DecidableEq, Repr

/-- Modelled from the spec: reverse on a Visit (defined in snarls.hpp,
which is not under src) negates the backward flag. The swap of the start
and end roles described by the spec is carried by the flag itself: manage
in src looks the boundary pair of a visit up under the stored key, so the
pair must stay in stored order for prev_in_chain and chains_of to work at
all. -/
def reverseV (v : Visit) : Visit := { v with backward := !v.backward }

/-- Reverse of a boundary visit (a node visit): negate the backward flag. -/
def reverseS (s : Side) : Side := ⟨s.node_id, !s.backward⟩

/-- Canonical key of a snarl: the boundary quadruple used by
SnarlManager::key_form. -/
abbrev SKey := (Int × Bool) × (Int × Bool)

def key_of_sides (s e : Side) : SKey :=
  ((s.node_id, s.backward), (e.node_id, e.backward))

def SnarlRec.key_form (r : SnarlRec) : SKey := key_of_sides r.start_ r.end_

def SnarlBd.key_form (b : SnarlBd) : SKey := key_of_sides b.start_ b.end_

/-! Association lists with overwrite-on-insert, modelling unordered_map. -/

def lookA {K V : Type} [DecidableEq K] : List (K × V) → K → Option V
  | [], _ => none
  | (k, v) :: rest, k' => if k = k' then some v else lookA rest k'

def eraseA {K V : Type} [DecidableEq K] : List (K × V) → K → List (K × V)
  | [], _ => []
  | p :: rest, k => if p.1 = k then eraseA rest k else p :: eraseA rest k

def setA {K V : Type} [DecidableEq K] (m : List (K × V)) (k : K) (v : V) : List (K × V) :=
  (k, v) :: eraseA m k

theorem lookA_eraseA_self {K V : Type} [DecidableEq K] (m : List (K × V)) (k : K) :
    lookA (eraseA m k) k = none := by
  induction m with
  | nil => rfl
  | cons p rest ih =>
    by_cases h : p.1 = k
    · simpa [eraseA, h] using ih
    · simp only [eraseA, if_neg h, lookA, if_neg h]
      exact ih

theorem lookA_eraseA_ne {K V : Type} [DecidableEq K] (m : List (K × V)) (k k' : K)
    (h : k' ≠ k) : lookA (eraseA m k) k' = lookA m k' := by
  induction m with
  | nil => rfl
  | cons p rest ih =>
    by_cases hp : p.1 = k
    · have hpk : ¬p.1 = k' := by rw [hp]; exact Ne.symm h
      simp only [eraseA, if_pos hp, lookA, if_neg hpk]
      exact ih
    · simp only [eraseA, if_neg hp, lookA]
      by_cases hq : p.1 = k'
      · simp [hq]
      · simp only [if_neg hq]
        exact ih

theorem lookA_setA_self {K V : Type} [DecidableEq K] (m : List (K × V)) (k : K) (v : V) :
    lookA (setA m k v) k = some v := by
  simp [setA, lookA]

theorem lookA_setA_ne {K V : Type} [DecidableEq K] (m : List (K × V)) (k k' : K) (v : V)
    (h : k' ≠ k) : lookA (setA m k v) k' = lookA m k' := by
  have : k ≠ k' := fun hh => h hh.symm
  simp [setA, lookA, this]
  exact lookA_eraseA_ne m k k' h

/-! The snarl manager: store plus the four derived indexes. -/

structure SnarlManager where
  snarls : List SnarlRec
  roots : List Nat := []
  parent : List (SKey × Option Nat) := []
  children : List (SKey × List Nat) := []
  index_of : List (SKey × Nat) := []
  snarl_into : List ((Int × Bool) × Nat) := []
deriving DecidableEq, Repr

/-- First pass of SnarlManager::build_indexes for one record at store
position i: record the index, register the child under its parent key or
as a root, and insert the two boundary entries. -/
def pass1Step (m : SnarlManager) (i : Nat) (s : SnarlRec) : SnarlManager :=
  let m1 := { m with index_of := setA m.index_of s.key_form i }
  let m2 :=
    match s.parent with
    | some p =>
      let cur :=
        match lookA m1.children p.key_form with
        | none => [i]
        | some l => l ++ [i]
      { m1 with children := setA m1.children p.key_form cur }
    | none =>
      { m1 with roots := m1.roots ++ [i],
                parent := setA m1.parent s.key_form none }
  let si1 := setA m2.snarl_into (s.start_.node_id, s.start_.backward) i
  let si2 := setA si1 (s.end_.node_id, !s.end_.backward) i
  { m2 with snarl_into := si2 }

def pass1Go : SnarlManager → Nat → List SnarlRec → SnarlManager
  | m, _, [] => m
  | m, i, s :: rest => pass1Go (pass1Step m i s) (i + 1) rest

/-- Second pass of build_indexes for the record at position i: fix the
parent back-pointers of its children, or ensure an empty children entry. -/
def pass2Step (m : SnarlManager) (i : Nat) (s : SnarlRec) : SnarlManager :=
  match lookA m.children s.key_form with
  | some kids =>
    { m with parent :=
        kids.foldl (fun pm c => setA pm (m.snarls.getD c dfltRec).key_form (some i)) m.parent }
  | none => { m with children := setA m.children s.key_form [] }

def pass2Go : SnarlManager → Nat → List SnarlRec → SnarlManager
  | m, _, [] => m
  | m, i, s :: rest => pass2Go (pass2Step m i s) (i + 1) rest

/-- SnarlManager::build_indexes run on a freshly loaded store. -/
def build_indexes (store : List SnarlRec) : SnarlManager :=
  pass2Go (pass1Go { snarls := store } 0 store) 0 store

/-- SnarlManager::children_of; a null snarl pointer (none) asks for the
top level snarls. -/
def children_of (m : SnarlManager) (s : Option Nat) : List Nat :=
  match s with
  | none => m.roots
  | some i => (lookA m.children (m.snarls.getD i dfltRec).key_form).getD []

/-- SnarlManager::top_level_snarls. -/
def top_level_snarls (m : SnarlManager) : List Nat := m.roots

/-- SnarlManager::into_which_snarl on a node id and orientation. -/
def into_which_snarl (m : SnarlManager) (id : Int) (rev : Bool) : Option Nat :=
  lookA m.snarl_into (id, rev)

/-- SnarlManager::snarl_sharing_start: look out of the start, suppressing
the snarl itself (unary case). -/
def snarl_sharing_start (m : SnarlManager) (i : Nat) : Option Nat :=
  let r := m.snarls.getD i dfltRec
  match into_which_snarl m r.start_.node_id (!r.start_.backward) with
  | some j => if j = i then none else some j
  | none => none

/-- SnarlManager::snarl_sharing_end: look out of the end, suppressing the
snarl itself (unary case). -/
def snarl_sharing_end (m : SnarlManager) (i : Nat) : Option Nat :=
  let r := m.snarls.getD i dfltRec
  match into_which_snarl m r.end_.node_id r.end_.backward with
  | some j => if j = i then none else some j
  | none => none

/-- SnarlManager::manage on a snarl given by value: look the canonical key
up in index_of; none models the runtime_error thrown on an unknown key. -/
def manage (m : SnarlManager) (b : SnarlBd) : Option Nat :=
  lookA m.index_of b.key_form

/-- SnarlManager::next_in_chain. The source computes the returned visit
and its backward flag but reaches the end of the function without an
explicit return statement on the non-null path; following the design notes
of the spec and the call sites in chains_of, this model returns the
computed visit. A none result models the assertions and the manage lookup
aborting. -/
def next_in_chain (m : SnarlManager) (here : Visit) : Option Visit :=
  if here.node_id ≠ 0 then none
  else
    match manage m (here.snarl.getD ⟨⟨0, false⟩, ⟨0, false⟩⟩) with
    | none => none
    | some i =>
      let hs := m.snarls.getD i dfltRec
      match (if here.backward then snarl_sharing_start m i else snarl_sharing_end m i) with
      | none => some {}
      | some j =>
        let nr := m.snarls.getD j dfltRec
        some { node_id := 0, snarl := some ⟨nr.start_, nr.end_⟩,
               backward :=
                 if here.backward then decide (nr.end_.node_id = hs.start_.node_id)
                 else decide (nr.start_.node_id ≠ hs.end_.node_id) }

/-- SnarlManager::prev_in_chain: reverse of next_in_chain of the reverse. -/
def prev_in_chain (m : SnarlManager) (here : Visit) : Option Visit :=
  (next_in_chain m (reverseV here)).map reverseV

/-- Snarl visit to the record at index i, as built by chains_of through
transfer_boundary_info. -/
def visitTo (m : SnarlManager) (i : Nat) : Visit :=
  { node_id := 0,
    snarl := some ⟨(m.snarls.getD i dfltRec).start_, (m.snarls.getD i dfltRec).end_⟩,
    backward := false }

/-- Left extension loop of chains_of: keep taking prev_in_chain while the
produced visit has a snarl, pushing the managed index on the front of the
chain and into the seen set. The fuel bounds the loop; the source loop has
no own bound and does not terminate on circular chains. -/
def walkL (m : SnarlManager) : Nat → Visit → List Nat → List Nat → List Nat × List Nat
  | 0, _, chain, seen => (chain, seen)
  | fuel + 1, v, chain, seen =>
    match prev_in_chain m v with
    | some w =>
      match w.snarl with
      | some bd =>
        walkL m fuel w ((manage m bd).getD 0 :: chain) ((manage m bd).getD 0 :: seen)
      | none => (chain, seen)
    | none => (chain, seen)

/-- Right extension loop of chains_of, symmetric to walkL. -/
def walkR (m : SnarlManager) : Nat → Visit → List Nat → List Nat → List Nat × List Nat
  | 0, _, chain, seen => (chain, seen)
  | fuel + 1, v, chain, seen =>
    match next_in_chain m v with
    | some w =>
      match w.snarl with
      | some bd =>
        walkR m fuel w (chain ++ [(manage m bd).getD 0]) ((manage m bd).getD 0 :: seen)
      | none => (chain, seen)
    | none => (chain, seen)

/-- Chain construction for one unseen child in chains_of: seed with the
child, extend left, then extend right from the seed visit. -/
def buildChain (m : SnarlManager) (fuel : Nat) (child : Nat) (seen : List Nat) :
    List Nat × List Nat :=
  let here := visitTo m child
  let st := walkL m fuel here [child] (child :: seen)
  walkR m fuel here st.1 st.2

/-- Child loop of SnarlManager::chains_of. -/
def chainsGo (m : SnarlManager) (fuel : Nat) :
    List Nat → List Nat → List (List Nat) → List (List Nat)
  | [], _, acc => acc
  | c :: rest, seen, acc =>
    if c ∈ seen then chainsGo m fuel rest seen acc
    else
      let st := buildChain m fuel c seen
      chainsGo m fuel rest st.2 (acc ++ [st.1])

/-- SnarlManager::chains_of with an explicit fuel bound on the walks. -/
def chains_of (m : SnarlManager) (s : Option Nat) (fuel : Nat) : List (List Nat) :=
  chainsGo m fuel (children_of m s) [] []

/-- The record produced by SnarlManager::flip: swap and negate the start
and end sides. -/
def flipRec (r : SnarlRec) : SnarlRec :=
  { r with start_ := ⟨r.end_.node_id, !r.end_.backward⟩,
           end_ := ⟨r.start_.node_id, !r.start_.backward⟩ }

/-- Entry move used by SnarlManager::flip on each index: write the value
found under the old key (default-constructed when absent, as operator
square brackets does) under the new key, then erase the old key. -/
def moveA {K V : Type} [DecidableEq K] (mp : List (K × V)) (old_key new_key : K) (d : V) :
    List (K × V) :=
  eraseA (setA mp new_key ((lookA mp old_key).getD d)) old_key

/-- SnarlManager::flip on the record at store position i: rewrite the
record and move the parent, children and index_of entries from the old key
to the new key (insert under the new key first, then erase the old key,
exactly as the source does); snarl_into is not touched. -/
def flip_snarl (m : SnarlManager) (i : Nat) : SnarlManager :=
  let r := m.snarls.getD i dfltRec
  let old_key := r.key_form
  let r' := flipRec r
  let new_key := r'.key_form
  { m with
    snarls := m.snarls.set i r',
    parent := moveA m.parent old_key new_key none,
    children := moveA m.children old_key new_key [],
    index_of := moveA m.index_of old_key new_key 0 }

/-! Free chain helper functions over a chain of snarl records (the source
works with vectors of snarl pointers; the records are dereferenced here). -/

/-- The function start_backward of snarls.cpp: the first snarl is backward
if it shares its start node with either boundary of the second snarl. -/
def start_backward (c : List SnarlRec) : Bool :=
  match c with
  | a :: b :: _ =>
    decide (a.start_.node_id = b.start_.node_id) || decide (a.start_.node_id = b.end_.node_id)
  | _ => false

/-- The function end_backward of snarls.cpp: the last snarl is backward if
it shares its end node with either boundary of the next-to-last snarl. -/
def end_backward (c : List SnarlRec) : Bool :=
  match c.reverse with
  | a :: b :: _ =>
    decide (a.end_.node_id = b.start_.node_id) || decide (a.end_.node_id = b.end_.node_id)
  | _ => false

/-- The function get_start of snarls.cpp. The result on an empty chain is
a default side; the source dereferences an empty vector there. -/
def get_start (c : List SnarlRec) : Side :=
  match c with
  | [] => ⟨0, false⟩
  | a :: _ => if start_backward c then reverseS a.end_ else a.start_

/-- The function get_end of snarls.cpp, translated exactly as written: both
branches read chain.front(), the first element of the chain. -/
def get_end (c : List SnarlRec) : Side :=
  match c with
  | [] => ⟨0, false⟩
  | a :: _ => if end_backward c then reverseS a.start_ else a.end_

/-! Concrete stores used in evaluations, counterexamples and witnesses. -/

/-- Snarl from node 1 forward to node 2 forward. -/
def recA : SnarlRec := { start_ := ⟨1, false⟩, end_ := ⟨2, false⟩ }

/-- Snarl from node 2 forward to node 3 forward; forms a chain with recA. -/
def recB : SnarlRec := { start_ := ⟨2, false⟩, end_ := ⟨3, false⟩ }

/-- Manager over the two-snarl chain recA, recB. -/
def mAB : SnarlManager := build_indexes [recA, recB]

/-- Boundary pair of the parent snarl recP. -/
def bdP : SnarlBd := ⟨⟨1, false⟩, ⟨4, false⟩⟩

/-- Parent snarl from node 1 forward to node 4 forward. -/
def recP : SnarlRec := { start_ := ⟨1, false⟩, end_ := ⟨4, false⟩ }

/-- Child of recP sharing the parent start node. -/
def recA4 : SnarlRec := { start_ := ⟨1, false⟩, end_ := ⟨2, false⟩, parent := some bdP }

/-- Child of recP sharing the parent end node. -/
def recB4 : SnarlRec := { start_ := ⟨2, false⟩, end_ := ⟨4, false⟩, parent := some bdP }

/-- Top level sibling of recP, sharing node 4 with it in a chain. -/
def recT4 : SnarlRec := { start_ := ⟨4, false⟩, end_ := ⟨5, false⟩ }

/-- Manager with parent recP (children recA4, recB4) chained to sibling
recT4: the children overwrite boundary entries of the parent in
snarl_into. -/
def m4 : SnarlManager := build_indexes [recP, recA4, recB4, recT4]

/-- Child of recP whose end enters node 2 forward, like recA4. -/
def recC5 : SnarlRec := { start_ := ⟨5, false⟩, end_ := ⟨2, false⟩, parent := some bdP }

/-- Manager where the children recA4, recB4, recC5 of recP make the chain
walk reach recB4 from two different seeds. -/
def m5 : SnarlManager := build_indexes [recP, recA4, recB4, recC5]

/-- Degenerate snarl whose start and end lie on the same node in the same
orientation. -/
def recS6 : SnarlRec := { start_ := ⟨1, false⟩, end_ := ⟨1, false⟩ }

/-- Snarl entering node 1 backward, chained after recS6. -/
def recT6 : SnarlRec := { start_ := ⟨2, false⟩, end_ := ⟨1, true⟩ }

/-- Manager over the degenerate pair recS6, recT6. -/
def m6 : SnarlManager := build_indexes [recS6, recT6]

/-- Unary snarl: start and end are the two orientations of node 1, so the
canonical key is invariant under flip. -/
def recU : SnarlRec := { start_ := ⟨1, false⟩, end_ := ⟨1, true⟩ }

/-- Manager holding only the unary snarl recU. -/
def mU : SnarlManager := build_indexes [recU]

/-- C1: evaluation of the modelled next_in_chain on the two-snarl chain.
From a forward visit to recA it returns a snarl visit to recB with the
boundary fields transferred and backward false; from a forward visit to
recB, whose out side has no neighbor, it returns the empty visit; from a
backward visit to recB it returns a visit to recA with backward true,
since the end node of recA equals the start node of recB. These are the
values the claim describes; the source function computes them but reaches
the end of the function without returning them on the non-null path. -/
theorem C1_next_in_chain_eval :
    next_in_chain mAB { node_id := 0, snarl := some ⟨⟨1, false⟩, ⟨2, false⟩⟩, backward := false } =
      some { node_id := 0, snarl := some ⟨⟨2, false⟩, ⟨3, false⟩⟩, backward := false } ∧
    next_in_chain mAB { node_id := 0, snarl := some ⟨⟨2, false⟩, ⟨3, false⟩⟩, backward := false } =
      some { node_id := 0, snarl := none, backward := false } ∧
    next_in_chain mAB { node_id := 0, snarl := some ⟨⟨2, false⟩, ⟨3, false⟩⟩, backward := true } =
      some { node_id := 0, snarl := some ⟨⟨1, false⟩, ⟨2, false⟩⟩, backward := true } := by
  decide

/-- C2: on the chain recA, recB the function get_end reads the first
element of the chain in both branches, so it returns the end of recA
(node 2) and not the end visit of the last snarl recB (node 3) that the
claim describes; end_backward is false here, so by the claim the result
should be the end of the last snarl. -/
theorem C2_get_end_eval :
    get_end [recA, recB] = ⟨2, false⟩ ∧
    end_backward [recA, recB] = false ∧
    get_end [recA, recB] ≠ ([recA, recB].getD 1 dfltRec).end_ ∧
    ([recA, recB].getD 1 dfltRec).end_ = ⟨3, false⟩ := by
  decide

/-- C3 counterexample: for the unary snarl recU the flipped key equals the
original key, so flip inserts and then erases the same entry; after two
flips the index_of and parent entries for the snarl are gone instead of
being restored bit-exact. -/
theorem C3_flip_cex :
    lookA (build_indexes [recU]).index_of recU.key_form = some 0 ∧
    lookA (flip_snarl (flip_snarl (build_indexes [recU]) 0) 0).index_of recU.key_form = none ∧
    lookA (build_indexes [recU]).parent recU.key_form = some none ∧
    lookA (flip_snarl (flip_snarl (build_indexes [recU]) 0) 0).parent recU.key_form = none := by
  decide

/-- C4 counterexample: for the unary snarl recU the two boundary entry
keys coincide, so after build_indexes exactly one entry of snarl_into maps
to the snarl, not two. -/
theorem C4_snarl_into_cex :
    ((build_indexes [recU]).snarl_into.filter (fun p => decide (p.2 = 0))).length = 1 := by
  decide

/-- C5 counterexample: in m4 the chain walk from the children of recP
escapes through the shared boundary node 4 into the top level sibling
recT4 (index 3), so a returned chain contains a snarl that is not a child
of recP; in m5 the child recB4 (index 2) is collected into two different
chains, so a child does not appear in exactly one chain. -/
theorem C5_partition_cex :
    (chains_of m4 (some 0) 10 = [[1, 2, 3]] ∧ children_of m4 (some 0) = [1, 2]) ∧
    (chains_of m5 (some 0) 10 = [[1, 2], [3, 2]] ∧ children_of m5 (some 0) = [1, 2, 3]) := by
  decide

/-- C6 counterexample: in m4 the out-side neighbor of recP exists (recT4),
but walking back from recT4 reads the snarl_into entry at node 4 that the
child recB4 overwrote, so the round trip returns a visit to recB4 instead
of recP; in m6 the neighbor of the degenerate snarl recS6 exists and the
round trip returns a visit to recS6 with the wrong orientation. -/
theorem C6_roundtrip_cex :
    (snarl_sharing_end m4 0 = some 3 ∧
      (next_in_chain m4 (visitTo m4 0)).bind (prev_in_chain m4) ≠ some (visitTo m4 0)) ∧
    (snarl_sharing_end m6 0 = some 1 ∧
      (next_in_chain m6 (visitTo m6 0)).bind (prev_in_chain m6) ≠ some (visitTo m6 0)) := by
  decide

/-! Characterization of the indexes produced by build_indexes. The three
helper folds below replay exactly the contributions of the first pass to
index_of, snarl_into and roots; projection lemmas connect them to
build_indexes. -/

def ioGo : List (SKey × Nat) → Nat → List SnarlRec → List (SKey × Nat)
  | acc, _, [] => acc
  | acc, i, s :: rest => ioGo (setA acc s.key_form i) (i + 1) rest

def siGo : List ((Int × Bool) × Nat) → Nat → List SnarlRec → List ((Int × Bool) × Nat)
  | acc, _, [] => acc
  | acc, i, s :: rest =>
    siGo (setA (setA acc (s.start_.node_id, s.start_.backward) i)
      (s.end_.node_id, !s.end_.backward) i) (i + 1) rest

def rootsGo : Nat → List SnarlRec → List Nat
  | _, [] => []
  | i, s :: rest =>
    (match s.parent with
     | none => [i]
     | some _ => []) ++ rootsGo (i + 1) rest

theorem pass1Step_index_of (m : SnarlManager) (i : Nat) (s : SnarlRec) :
    (pass1Step m i s).index_of = setA m.index_of s.key_form i := by
  cases hp : s.parent <;> simp [pass1Step, hp]

theorem pass1Step_snarl_into (m : SnarlManager) (i : Nat) (s : SnarlRec) :
    (pass1Step m i s).snarl_into =
      setA (setA m.snarl_into (s.start_.node_id, s.start_.backward) i)
        (s.end_.node_id, !s.end_.backward) i := by
  cases hp : s.parent <;> simp [pass1Step, hp]

theorem pass1Step_roots (m : SnarlManager) (i : Nat) (s : SnarlRec) :
    (pass1Step m i s).roots =
      m.roots ++ (match s.parent with | none => [i] | some _ => []) := by
  cases hp : s.parent <;> simp [pass1Step, hp]

theorem pass1Go_index_of (l : List SnarlRec) :
    ∀ (m : SnarlManager) (i : Nat), (pass1Go m i l).index_of = ioGo m.index_of i l := by
  induction l with
  | nil => intro m i; rfl
  | cons s rest ih =>
    intro m i
    simp only [pass1Go, ioGo, ih, pass1Step_index_of]

theorem pass1Go_snarl_into (l : List SnarlRec) :
    ∀ (m : SnarlManager) (i : Nat), (pass1Go m i l).snarl_into = siGo m.snarl_into i l := by
  induction l with
  | nil => intro m i; rfl
  | cons s rest ih =>
    intro m i
    simp only [pass1Go, siGo, ih, pass1Step_snarl_into]

theorem pass1Go_roots (l : List SnarlRec) :
    ∀ (m : SnarlManager) (i : Nat), (pass1Go m i l).roots = m.roots ++ rootsGo i l := by
  induction l with
  | nil => intro m i; simp [pass1Go, rootsGo]
  | cons s rest ih =>
    intro m i
    simp only [pass1Go, rootsGo, ih, pass1Step_roots]
    cases hp : s.parent <;> simp [hp]

theorem pass2Step_index_of (m : SnarlManager) (i : Nat) (s : SnarlRec) :
    (pass2Step m i s).index_of = m.index_of := by
  cases hc : lookA m.children s.key_form <;> simp [pass2Step, hc]

theorem pass2Step_snarl_into (m : SnarlManager) (i : Nat) (s : SnarlRec) :
    (pass2Step m i s).snarl_into = m.snarl_into := by
  cases hc : lookA m.children s.key_form <;> simp [pass2Step, hc]

theorem pass2Step_roots (m : SnarlManager) (i : Nat) (s : SnarlRec) :
    (pass2Step m i s).roots = m.roots := by
  cases hc : lookA m.children s.key_form <;> simp [pass2Step, hc]

theorem pass2Go_index_of (l : List SnarlRec) :
    ∀ (m : SnarlManager) (i : Nat), (pass2Go m i l).index_of = m.index_of := by
  induction l with
  | nil => intro m i; rfl
  | cons s rest ih =>
    intro m i
    simp only [pass2Go, ih, pass2Step_index_of]

theorem pass2Go_snarl_into (l : List SnarlRec) :
    ∀ (m : SnarlManager) (i : Nat), (pass2Go m i l).snarl_into = m.snarl_into := by
  induction l with
  | nil => intro m i; rfl
  | cons s rest ih =>
    intro m i
    simp only [pass2Go, ih, pass2Step_snarl_into]

theorem pass2Go_roots (l : List SnarlRec) :
    ∀ (m : SnarlManager) (i : Nat), (pass2Go m i l).roots = m.roots := by
  induction l with
  | nil => intro m i; rfl
  | cons s rest ih =>
    intro m i
    simp only [pass2Go, ih, pass2Step_roots]

theorem build_index_of (store : List SnarlRec) :
    (build_indexes store).index_of = ioGo [] 0 store := by
  simp [build_indexes, pass2Go_index_of, pass1Go_index_of]

theorem build_snarl_into (store : List SnarlRec) :
    (build_indexes store).snarl_into = siGo [] 0 store := by
  simp [build_indexes, pass2Go_snarl_into, pass1Go_snarl_into]

theorem build_roots (store : List SnarlRec) :
    (build_indexes store).roots = rootsGo 0 store := by
  simp [build_indexes, pass2Go_roots, pass1Go_roots]

/-! Small list lemmas kept self-contained. -/

theorem mem_of_getQ {α : Type} {l : List α} {p : Nat} {a : α} (h : l.get? p = some a) :
    a ∈ l := by
  induction l generalizing p with
  | nil => cases p <;> simp [List.get?] at h
  | cons x rest ih =>
    cases p with
    | zero => simp [List.get?] at h; simp [h]
    | succ q =>
      simp only [List.get?] at h
      exact List.mem_cons_of_mem x (ih h)

theorem getQ_of_mem {α : Type} {l : List α} {a : α} (h : a ∈ l) :
    ∃ p, l.get? p = some a := by
  induction l with
  | nil => cases h
  | cons x rest ih =>
    rcases List.mem_cons.mp h with he | hm
    · exact ⟨0, by simp [List.get?, he]⟩
    · obtain ⟨p, hp⟩ := ih hm
      exact ⟨p + 1, by simpa [List.get?] using hp⟩

/-! Lookup lemmas for the index_of characterization. -/

theorem ioGo_lookA_notin (l : List SnarlRec) :
    ∀ (acc : List (SKey × Nat)) (i : Nat) (k : SKey),
      (∀ s ∈ l, s.key_form ≠ k) → lookA (ioGo acc i l) k = lookA acc k := by
  induction l with
  | nil => intro acc i k _; rfl
  | cons s rest ih =>
    intro acc i k h
    have hk : k ≠ s.key_form := fun hh => (h s (by simp)) hh.symm
    rw [ioGo, ih _ _ _ (fun t ht => h t (by simp [ht]))]
    exact lookA_setA_ne _ _ _ _ hk

theorem ioGo_lookA_nodup (l : List SnarlRec) :
    ∀ (acc : List (SKey × Nat)) (i p : Nat) (s : SnarlRec),
      (l.map SnarlRec.key_form).Nodup → l.get? p = some s →
      lookA (ioGo acc i l) s.key_form = some (i + p) := by
  induction l with
  | nil => intro acc i p s _ h; cases p <;> simp [List.get?] at h
  | cons t rest ih =>
    intro acc i p s hnd hget
    have hnd' := List.nodup_cons.mp hnd
    cases p with
    | zero =>
      simp only [List.get?] at hget
      injection hget with he
      subst he
      have hrest : ∀ u ∈ rest, u.key_form ≠ t.key_form := by
        intro u hu he
        exact hnd'.1 (he ▸ List.mem_map_of_mem SnarlRec.key_form hu)
      rw [ioGo, ioGo_lookA_notin rest _ _ _ hrest, lookA_setA_self]
      simp
    | succ q =>
      simp only [List.get?] at hget
      rw [ioGo, ih _ _ _ _ hnd'.2 hget]
      congr 1
      omega

theorem ioGo_lookA_mem (l : List SnarlRec) :
    ∀ (acc : List (SKey × Nat)) (i : Nat) (k : SKey),
      (∃ s ∈ l, s.key_form = k) →
      ∃ p s, l.get? p = some s ∧ s.key_form = k ∧ p < l.length ∧
        lookA (ioGo acc i l) k = some (i + p) := by
  induction l with
  | nil =>
    intro acc i k h
    obtain ⟨s, hs, _⟩ := h
    cases hs
  | cons t rest ih =>
    intro acc i k h
    by_cases hr : ∃ s ∈ rest, s.key_form = k
    · obtain ⟨p, s, hget, hk, hlen, hlook⟩ := ih (setA acc t.key_form i) (i + 1) k hr
      refine ⟨p + 1, s, by simpa [List.get?] using hget, hk, by simpa using Nat.succ_lt_succ hlen, ?_⟩
      rw [ioGo, hlook]
      congr 1
      omega
    · have ht : t.key_form = k := by
        obtain ⟨s, hs, he⟩ := h
        rcases List.mem_cons.mp hs with rfl | hm
        · exact he
        · exact absurd ⟨s, hm, he⟩ hr
      have hrest : ∀ u ∈ rest, u.key_form ≠ k := fun u hu he => hr ⟨u, hu, he⟩
      refine ⟨0, t, by simp [List.get?], ht, by simp, ?_⟩
      rw [ioGo, ioGo_lookA_notin rest _ _ _ hrest, ht, lookA_setA_self]
      simp

theorem rootsGo_mem (l : List SnarlRec) :
    ∀ (i j : Nat), j ∈ rootsGo i l ↔
      ∃ p s, l.get? p = some s ∧ j = i + p ∧ s.parent = none := by
  induction l with
  | nil =>
    intro i j
    constructor
    · intro h; cases h
    · rintro ⟨p, s, hget, _, _⟩
      cases p <;> simp [List.get?] at hget
  | cons t rest ih =>
    intro i j
    constructor
    · intro h
      cases hp : t.parent with
      | none =>
        rw [rootsGo] at h
        simp only [hp, List.mem_append, List.mem_singleton] at h
        rcases h with rfl | h
        · exact ⟨0, t, by simp [List.get?], by simp, hp⟩
        · obtain ⟨p, s, hget, hj, hpar⟩ := (ih (i + 1) j).mp h
          exact ⟨p + 1, s, by simpa [List.get?] using hget, by omega, hpar⟩
      | some q =>
        rw [rootsGo] at h
        simp only [hp, List.nil_append] at h
        obtain ⟨p, s, hget, hj, hpar⟩ := (ih (i + 1) j).mp h
        exact ⟨p + 1, s, by simpa [List.get?] using hget, by omega, hpar⟩
    · rintro ⟨p, s, hget, hj, hpar⟩
      cases p with
      | zero =>
        simp only [List.get?] at hget
        injection hget with he
        subst he
        rw [rootsGo]
        simp [hpar, hj]
      | succ q =>
        simp only [List.get?] at hget
        have : j ∈ rootsGo (i + 1) rest :=
          (ih (i + 1) j).mpr ⟨q, s, hget, by omega, hpar⟩
        rw [rootsGo]
        cases hp : t.parent <;> simp [hp, this]

/-- C10: children_of on the null snarl pointer returns the roots vector,
exactly as top_level_snarls does, and membership in that vector is exactly
being the store position of a record without a parent. -/
theorem C10_children_of_null (store : List SnarlRec) :
    children_of (build_indexes store) none = top_level_snarls (build_indexes store) ∧
    ∀ j : Nat, j ∈ top_level_snarls (build_indexes store) ↔
      ∃ s, store.get? j = some s ∧ s.parent = none := by
  constructor
  · rfl
  · intro j
    rw [top_level_snarls, build_roots, rootsGo_mem]
    constructor
    · rintro ⟨p, s, hget, hj, hpar⟩
      exact ⟨s, by simpa [hj] using hget, hpar⟩
    · rintro ⟨s, hget, hpar⟩
      exact ⟨j, s, hget, by omega, hpar⟩

/-- C9: manage on a by-value copy of a stored snarl finds it through
index_of. With pairwise distinct canonical keys the result is exactly the
store position of the record; in general it is the position of a stored
record with the same canonical key (which the data model considers the
same snarl); a snarl whose key is held by no stored record makes manage
fail (none, modelling the thrown runtime_error), and manage, a const
member, does not change the manager. -/
theorem C9_manage :
    (∀ (store : List SnarlRec) (i : Nat) (S : SnarlRec), store.get? i = some S →
      (store.map SnarlRec.key_form).Nodup →
      manage (build_indexes store) ⟨S.start_, S.end_⟩ = some i) ∧
    (∀ (store : List SnarlRec) (i : Nat) (S : SnarlRec), store.get? i = some S →
      ∃ j T, store.get? j = some T ∧ T.key_form = S.key_form ∧
        manage (build_indexes store) ⟨S.start_, S.end_⟩ = some j) ∧
    (∀ (store : List SnarlRec) (b : SnarlBd),
      (∀ s ∈ store, s.key_form ≠ b.key_form) →
      manage (build_indexes store) b = none) := by
  refine ⟨?_, ?_, ?_⟩
  · intro store i S hget hnd
    have : lookA (ioGo [] 0 store) S.key_form = some (0 + i) :=
      ioGo_lookA_nodup store [] 0 i S hnd hget
    simpa [manage, build_index_of, SnarlBd.key_form, SnarlRec.key_form] using this
  · intro store i S hget
    obtain ⟨p, T, hgT, hk, _, hlook⟩ :=
      ioGo_lookA_mem store [] 0 S.key_form ⟨S, mem_of_getQ hget, rfl⟩
    refine ⟨p, T, hgT, hk, ?_⟩
    simpa [manage, build_index_of, SnarlBd.key_form, SnarlRec.key_form] using hlook
  · intro store b h
    have : lookA (ioGo [] 0 store) b.key_form = lookA ([] : List (SKey × Nat)) b.key_form :=
      ioGo_lookA_notin store [] 0 b.key_form h
    simpa [manage, build_index_of] using this

/-- C9 witness: in the two-snarl manager mAB, a by-value copy of the first
record is managed to position 0, and a snarl with an unknown key fails. -/
theorem C9_manage_witness :
    manage (build_indexes [recA, recB]) ⟨recA.start_, recA.end_⟩ = some 0 ∧
    manage (build_indexes [recA, recB]) ⟨⟨7, false⟩, ⟨8, false⟩⟩ = none := by
  constructor
  · exact C9_manage.1 [recA, recB] 0 recA (by decide) (by decide)
  · exact C9_manage.2.2 [recA, recB] ⟨⟨7, false⟩, ⟨8, false⟩⟩ (by decide)

theorem getQ_lt {α : Type} : ∀ (l : List α) (i : Nat) (a : α), l.get? i = some a → i < l.length := by
  intro l
  induction l with
  | nil => intro i a h; cases i <;> simp [List.get?] at h
  | cons x rest ih =>
    intro i a h
    cases i with
    | zero => simp
    | succ q =>
      simp only [List.get?] at h
      simpa using Nat.succ_lt_succ (ih q a h)

theorem drop_eq_cons_of_getQ {α : Type} :
    ∀ (l : List α) (i : Nat) (a : α), l.get? i = some a → l.drop i = a :: l.drop (i + 1) := by
  intro l
  induction l with
  | nil => intro i a h; cases i <;> simp [List.get?] at h
  | cons x rest ih =>
    intro i a h
    cases i with
    | zero =>
      simp only [List.get?] at h
      injection h with h
      simp [h]
    | succ q =>
      simp only [List.get?] at h
      simpa [List.drop] using ih q a h

theorem getQ_drop {α : Type} :
    ∀ (l : List α) (n q : Nat), (l.drop n).get? q = l.get? (n + q) := by
  intro l
  induction l with
  | nil => intro n q; cases n <;> simp [List.get?]
  | cons x rest ih =>
    intro n q
    cases n with
    | zero => simp
    | succ n' =>
      have harith : n' + 1 + q = (n' + q) + 1 := by omega
      simp only [List.drop]
      rw [ih n' q, harith]
      rfl

theorem siGo_lookA_notin (l : List SnarlRec) :
    ∀ (acc : List ((Int × Bool) × Nat)) (i : Nat) (k : Int × Bool),
      (∀ s ∈ l, ((s.start_.node_id, s.start_.backward) : Int × Bool) ≠ k ∧
        ((s.end_.node_id, !s.end_.backward) : Int × Bool) ≠ k) →
      lookA (siGo acc i l) k = lookA acc k := by
  induction l with
  | nil => intro acc i k _; rfl
  | cons s rest ih =>
    intro acc i k h
    have h1 := (h s (by simp)).1
    have h2 := (h s (by simp)).2
    rw [siGo, ih _ _ _ (fun t ht => h t (by simp [ht]))]
    rw [lookA_setA_ne _ _ _ _ (Ne.symm h2), lookA_setA_ne _ _ _ _ (Ne.symm h1)]

theorem siGo_lookA_cases (l : List SnarlRec) :
    ∀ (acc : List ((Int × Bool) × Nat)) (i : Nat) (k : Int × Bool) (v : Nat),
      lookA (siGo acc i l) k = some v →
      lookA acc k = some v ∨
      ∃ p s, l.get? p = some s ∧ v = i + p ∧
        (k = (s.start_.node_id, s.start_.backward) ∨ k = (s.end_.node_id, !s.end_.backward)) := by
  induction l with
  | nil => intro acc i k v h; exact Or.inl h
  | cons s rest ih =>
    intro acc i k v h
    rw [siGo] at h
    rcases ih _ _ _ _ h with hl | ⟨p, t, hget, hv, hk⟩
    · by_cases h2 : k = (s.end_.node_id, !s.end_.backward)
      · rw [h2, lookA_setA_self] at hl
        injection hl with hv
        exact Or.inr ⟨0, s, by simp [List.get?], by omega, Or.inr h2⟩
      · rw [lookA_setA_ne _ _ _ _ h2] at hl
        by_cases h1 : k = (s.start_.node_id, s.start_.backward)
        · rw [h1, lookA_setA_self] at hl
          injection hl with hv
          exact Or.inr ⟨0, s, by simp [List.get?], by omega, Or.inl h1⟩
        · rw [lookA_setA_ne _ _ _ _ h1] at hl
          exact Or.inl hl
    · exact Or.inr ⟨p + 1, t, by simpa [List.get?] using hget, by omega, hk⟩

theorem siGo_append (l1 l2 : List SnarlRec) :
    ∀ (acc : List ((Int × Bool) × Nat)) (i : Nat),
      siGo acc i (l1 ++ l2) = siGo (siGo acc i l1) (i + l1.length) l2 := by
  induction l1 with
  | nil => intro acc i; simp [siGo]
  | cons s rest ih =>
    intro acc i
    show siGo (setA (setA acc (s.start_.node_id, s.start_.backward) i)
        (s.end_.node_id, !s.end_.backward) i) (i + 1) (rest ++ l2) =
      siGo (siGo (setA (setA acc (s.start_.node_id, s.start_.backward) i)
        (s.end_.node_id, !s.end_.backward) i) (i + 1) rest) (i + (rest.length + 1)) l2
    have harith : i + (rest.length + 1) = (i + 1) + rest.length := by omega
    rw [harith, ih]

/-- C4 (amended): if the two boundary entry keys of the record S at store
position i are distinct and no other stored record has either of them as
one of its two entry keys, then after build_indexes the keys mapping to S
in snarl_into are exactly (start.id, start.backward) and
(end.id, not end.backward); and flip never modifies snarl_into at all. -/
theorem C4_snarl_into_amended (store : List SnarlRec) (i : Nat) (S : SnarlRec)
    (hS : store.get? i = some S)
    (hkk : ((S.start_.node_id, S.start_.backward) : Int × Bool) ≠ (S.end_.node_id, !S.end_.backward))
    (hother : ∀ j T, store.get? j = some T → j ≠ i →
      ((T.start_.node_id, T.start_.backward) : Int × Bool) ≠ (S.start_.node_id, S.start_.backward) ∧
      ((T.start_.node_id, T.start_.backward) : Int × Bool) ≠ (S.end_.node_id, !S.end_.backward) ∧
      ((T.end_.node_id, !T.end_.backward) : Int × Bool) ≠ (S.start_.node_id, S.start_.backward) ∧
      ((T.end_.node_id, !T.end_.backward) : Int × Bool) ≠ (S.end_.node_id, !S.end_.backward)) :
    (∀ k : Int × Bool, lookA (build_indexes store).snarl_into k = some i ↔
      (k = (S.start_.node_id, S.start_.backward) ∨ k = (S.end_.node_id, !S.end_.backward))) ∧
    (∀ (mm : SnarlManager) (a : Nat), (flip_snarl mm a).snarl_into = mm.snarl_into) := by
  constructor
  · intro k
    constructor
    · intro h
      rw [build_snarl_into] at h
      rcases siGo_lookA_cases store [] 0 k i h with hl | ⟨p, s, hget, hv, hk⟩
      · simp [lookA] at hl
      · have hpi : p = i := by omega
        subst hpi
        rw [hS] at hget
        injection hget with hsS
        subst hsS
        exact hk
    · intro hk
      rw [build_snarl_into]
      have hlen : i < store.length := getQ_lt store i S hS
      have hsplit : store = store.take i ++ (S :: store.drop (i + 1)) := by
        conv_lhs => rw [← List.take_append_drop i store]
        rw [drop_eq_cons_of_getQ store i S hS]
      have htlen : (store.take i).length = i := by
        rw [List.length_take]
        omega
      rw [hsplit, siGo_append, htlen]
      rw [siGo]
      have hdrop : ∀ s ∈ store.drop (i + 1),
          ((s.start_.node_id, s.start_.backward) : Int × Bool) ≠ k ∧
          ((s.end_.node_id, !s.end_.backward) : Int × Bool) ≠ k := by
        intro s hs
        obtain ⟨q, hq⟩ := getQ_of_mem hs
        rw [getQ_drop] at hq
        have hne : i + 1 + q ≠ i := by omega
        have h4 := hother (i + 1 + q) s hq hne
        rcases hk with rfl | rfl
        · exact ⟨h4.1, h4.2.2.1⟩
        · exact ⟨h4.2.1, h4.2.2.2⟩
      rw [siGo_lookA_notin _ _ _ _ hdrop]
      rcases hk with rfl | rfl
      · rw [lookA_setA_ne _ _ _ _ hkk, lookA_setA_self]
        simp
      · rw [lookA_setA_self]
        simp
  · intro mm a
    rfl

/-- C4 witness: in the manager over recA, recB the two entries mapping to
recA (position 0) are its start key and its negated end key. -/
theorem C4_snarl_into_witness :
    lookA (build_indexes [recA, recB]).snarl_into (1, false) = some 0 ∧
    lookA (build_indexes [recA, recB]).snarl_into (2, true) = some 0 := by
  have hother : ∀ j T, [recA, recB].get? j = some T → j ≠ 0 →
      ((T.start_.node_id, T.start_.backward) : Int × Bool) ≠ (recA.start_.node_id, recA.start_.backward) ∧
      ((T.start_.node_id, T.start_.backward) : Int × Bool) ≠ (recA.end_.node_id, !recA.end_.backward) ∧
      ((T.end_.node_id, !T.end_.backward) : Int × Bool) ≠ (recA.start_.node_id, recA.start_.backward) ∧
      ((T.end_.node_id, !T.end_.backward) : Int × Bool) ≠ (recA.end_.node_id, !recA.end_.backward) := by
    intro j T hget hne
    match j with
    | 0 => exact absurd rfl hne
    | 1 =>
      simp only [List.get?] at hget
      injection hget with h
      subst h
      refine ⟨by decide, by decide, by decide, by decide⟩
    | (n + 2) => simp [List.get?] at hget
  constructor
  · exact ((C4_snarl_into_amended [recA, recB] 0 recA (by decide) (by decide) hother).1
      (1, false)).mpr (Or.inl (by decide))
  · exact ((C4_snarl_into_amended [recA, recB] 0 recA (by decide) (by decide) hother).1
      (2, true)).mpr (Or.inr (by decide))

/-! Double flip analysis for C3. -/

theorem flipRec_flipRec (r : SnarlRec) : flipRec (flipRec r) = r := by
  cases r with
  | mk s e p =>
    cases s
    cases e
    simp [flipRec]

theorem flip_snarl_snarls (m : SnarlManager) (i : Nat) :
    (flip_snarl m i).snarls = m.snarls.set i (flipRec (m.snarls.getD i dfltRec)) := rfl

theorem flip_snarl_parent (m : SnarlManager) (i : Nat) :
    (flip_snarl m i).parent =
      moveA m.parent (m.snarls.getD i dfltRec).key_form
        (flipRec (m.snarls.getD i dfltRec)).key_form none := rfl

theorem flip_snarl_children (m : SnarlManager) (i : Nat) :
    (flip_snarl m i).children =
      moveA m.children (m.snarls.getD i dfltRec).key_form
        (flipRec (m.snarls.getD i dfltRec)).key_form [] := rfl

theorem flip_snarl_index_of (m : SnarlManager) (i : Nat) :
    (flip_snarl m i).index_of =
      moveA m.index_of (m.snarls.getD i dfltRec).key_form
        (flipRec (m.snarls.getD i dfltRec)).key_form 0 := rfl

theorem getD_set_self {α : Type} :
    ∀ (l : List α) (i : Nat) (a d : α), i < l.length → (l.set i a).getD i d = a := by
  intro l
  induction l with
  | nil => intro i a d h; simp at h
  | cons x rest ih =>
    intro i a d h
    cases i with
    | zero => rfl
    | succ q =>
      simp only [List.length_cons] at h
      exact ih q a d (by omega)

theorem set_getD_self {α : Type} :
    ∀ (l : List α) (i : Nat) (d : α), i < l.length → l.set i (l.getD i d) = l := by
  intro l
  induction l with
  | nil => intro i d h; simp at h
  | cons x rest ih =>
    intro i d h
    cases i with
    | zero => rfl
    | succ q =>
      simp only [List.length_cons] at h
      show x :: rest.set q (rest.getD q d) = x :: rest
      rw [ih q d (by omega)]

theorem set_set_self {α : Type} :
    ∀ (l : List α) (i : Nat) (a b : α), (l.set i a).set i b = l.set i b := by
  intro l
  induction l with
  | nil => intro i a b; rfl
  | cons x rest ih =>
    intro i a b
    cases i with
    | zero => rfl
    | succ q =>
      show x :: (rest.set q a).set q b = x :: rest.set q b
      rw [ih]

theorem moveA_twice_lookA {K V : Type} [DecidableEq K] (mp : List (K × V)) (k0 k1 : K)
    (d v : V) (hne : k1 ≠ k0) (hv : lookA mp k0 = some v) :
    lookA (moveA (moveA mp k0 k1 d) k1 k0 d) k0 = some v := by
  have h1 : lookA (moveA mp k0 k1 d) k1 = some v := by
    rw [moveA, hv]
    simp only [Option.getD_some]
    rw [lookA_eraseA_ne _ _ _ hne, lookA_setA_self]
  rw [moveA, h1]
  simp only [Option.getD_some]
  rw [lookA_eraseA_ne _ _ _ (Ne.symm hne), lookA_setA_self]

/-- C3 (amended): for a record whose flipped key differs from its original
key and whose parent, children and index_of entries are present, two flips
restore the store and the three entries at the key of the record, and
never touch snarl_into. -/
theorem C3_flip_amended (m : SnarlManager) (i : Nat) (pv : Option Nat) (cv : List Nat) (iv : Nat)
    (hi : i < m.snarls.length)
    (hk : (flipRec (m.snarls.getD i dfltRec)).key_form ≠ (m.snarls.getD i dfltRec).key_form)
    (hp : lookA m.parent (m.snarls.getD i dfltRec).key_form = some pv)
    (hc : lookA m.children (m.snarls.getD i dfltRec).key_form = some cv)
    (hio : lookA m.index_of (m.snarls.getD i dfltRec).key_form = some iv) :
    (flip_snarl (flip_snarl m i) i).snarls = m.snarls ∧
    lookA (flip_snarl (flip_snarl m i) i).parent (m.snarls.getD i dfltRec).key_form = some pv ∧
    lookA (flip_snarl (flip_snarl m i) i).children (m.snarls.getD i dfltRec).key_form = some cv ∧
    lookA (flip_snarl (flip_snarl m i) i).index_of (m.snarls.getD i dfltRec).key_form = some iv ∧
    (flip_snarl (flip_snarl m i) i).snarl_into = m.snarl_into := by
  have hr2 : (flip_snarl m i).snarls.getD i dfltRec = flipRec (m.snarls.getD i dfltRec) := by
    rw [flip_snarl_snarls]
    exact getD_set_self _ _ _ _ hi
  refine ⟨?_, ?_, ?_, ?_, rfl⟩
  · rw [flip_snarl_snarls (flip_snarl m i) i, hr2, flipRec_flipRec, flip_snarl_snarls,
      set_set_self]
    exact set_getD_self _ _ _ hi
  · rw [flip_snarl_parent (flip_snarl m i) i, hr2, flipRec_flipRec, flip_snarl_parent]
    exact moveA_twice_lookA m.parent _ _ none pv hk hp
  · rw [flip_snarl_children (flip_snarl m i) i, hr2, flipRec_flipRec, flip_snarl_children]
    exact moveA_twice_lookA m.children _ _ [] cv hk hc
  · rw [flip_snarl_index_of (flip_snarl m i) i, hr2, flipRec_flipRec, flip_snarl_index_of]
    exact moveA_twice_lookA m.index_of _ _ 0 iv hk hio

/-- C3 witness: the double flip restores the manager mAB at position 0,
whose flipped key differs from the original key. -/
theorem C3_flip_witness :
    (flip_snarl (flip_snarl mAB 0) 0).snarls = mAB.snarls ∧
    lookA (flip_snarl (flip_snarl mAB 0) 0).parent (mAB.snarls.getD 0 dfltRec).key_form =
      some none ∧
    lookA (flip_snarl (flip_snarl mAB 0) 0).children (mAB.snarls.getD 0 dfltRec).key_form =
      some [] ∧
    lookA (flip_snarl (flip_snarl mAB 0) 0).index_of (mAB.snarls.getD 0 dfltRec).key_form =
      some 0 ∧
    (flip_snarl (flip_snarl mAB 0) 0).snarl_into = mAB.snarl_into :=
  C3_flip_amended mAB 0 none [] 0 (by decide) (by decide) (by decide) (by decide) (by decide)

/-! Coverage analysis of chains_of for C5. -/

theorem walkL_spec (m : SnarlManager) :
    ∀ (fuel : Nat) (v : Visit) (chain seen : List Nat),
      (∀ x ∈ chain, x ∈ (walkL m fuel v chain seen).1) ∧
      (∀ x ∈ seen, x ∈ (walkL m fuel v chain seen).2) ∧
      (∀ x ∈ (walkL m fuel v chain seen).2, x ∈ seen ∨ x ∈ (walkL m fuel v chain seen).1) := by
  intro fuel
  induction fuel with
  | zero =>
    intro v chain seen
    exact ⟨fun x hx => hx, fun x hx => hx, fun x hx => Or.inl hx⟩
  | succ f ih =>
    intro v chain seen
    simp only [walkL]
    split
    · split
      · rename_i w hweq osn bd hbdeq
        obtain ⟨h1, h2, h3⟩ := ih w ((manage m bd).getD 0 :: chain) ((manage m bd).getD 0 :: seen)
        refine ⟨?_, ?_, ?_⟩
        · intro x hx
          exact h1 x (List.mem_cons_of_mem _ hx)
        · intro x hx
          exact h2 x (List.mem_cons_of_mem _ hx)
        · intro x hx
          rcases h3 x hx with hs | hc
          · rcases List.mem_cons.mp hs with rfl | hs'
            · exact Or.inr (h1 _ (List.mem_cons_self _ _))
            · exact Or.inl hs'
          · exact Or.inr hc
      · exact ⟨fun x hx => hx, fun x hx => hx, fun x hx => Or.inl hx⟩
    · exact ⟨fun x hx => hx, fun x hx => hx, fun x hx => Or.inl hx⟩

theorem walkR_spec (m : SnarlManager) :
    ∀ (fuel : Nat) (v : Visit) (chain seen : List Nat),
      (∀ x ∈ chain, x ∈ (walkR m fuel v chain seen).1) ∧
      (∀ x ∈ seen, x ∈ (walkR m fuel v chain seen).2) ∧
      (∀ x ∈ (walkR m fuel v chain seen).2, x ∈ seen ∨ x ∈ (walkR m fuel v chain seen).1) := by
  intro fuel
  induction fuel with
  | zero =>
    intro v chain seen
    exact ⟨fun x hx => hx, fun x hx => hx, fun x hx => Or.inl hx⟩
  | succ f ih =>
    intro v chain seen
    simp only [walkR]
    split
    · split
      · rename_i w hweq osn bd hbdeq
        obtain ⟨h1, h2, h3⟩ := ih w (chain ++ [(manage m bd).getD 0]) ((manage m bd).getD 0 :: seen)
        refine ⟨?_, ?_, ?_⟩
        · intro x hx
          exact h1 x (List.mem_append_left _ hx)
        · intro x hx
          exact h2 x (List.mem_cons_of_mem _ hx)
        · intro x hx
          rcases h3 x hx with hs | hc
          · rcases List.mem_cons.mp hs with rfl | hs'
            · exact Or.inr (h1 _ (List.mem_append_right _ (by simp)))
            · exact Or.inl hs'
          · exact Or.inr hc
      · exact ⟨fun x hx => hx, fun x hx => hx, fun x hx => Or.inl hx⟩
    · exact ⟨fun x hx => hx, fun x hx => hx, fun x hx => Or.inl hx⟩

theorem buildChain_spec (m : SnarlManager) (fuel : Nat) (child : Nat) (seen : List Nat) :
    child ∈ (buildChain m fuel child seen).1 ∧
    (∀ x ∈ (buildChain m fuel child seen).2,
      x ∈ seen ∨ x ∈ (buildChain m fuel child seen).1) := by
  obtain ⟨l1, l2, l3⟩ := walkL_spec m fuel (visitTo m child) [child] (child :: seen)
  obtain ⟨r1, r2, r3⟩ :=
    walkR_spec m fuel (visitTo m child)
      (walkL m fuel (visitTo m child) [child] (child :: seen)).1
      (walkL m fuel (visitTo m child) [child] (child :: seen)).2
  constructor
  · exact r1 child (l1 child (by simp))
  · intro x hx
    rcases r3 x hx with hs | hc
    · rcases l3 x hs with hcs | hc1
      · rcases List.mem_cons.mp hcs with rfl | hseen
        · exact Or.inr (r1 x (l1 x (by simp)))
        · exact Or.inl hseen
      · exact Or.inr (r1 x hc1)
    · exact Or.inr hc

theorem chainsGo_acc_mono (m : SnarlManager) (fuel : Nat) :
    ∀ (kids seen : List Nat) (acc : List (List Nat)) (ch : List Nat),
      ch ∈ acc → ch ∈ chainsGo m fuel kids seen acc := by
  intro kids
  induction kids with
  | nil => intro seen acc ch h; exact h
  | cons c rest ih =>
    intro seen acc ch h
    simp only [chainsGo]
    by_cases hc : c ∈ seen
    · rw [if_pos hc]
      exact ih _ _ _ h
    · rw [if_neg hc]
      exact ih _ _ _ (List.mem_append_left _ h)

theorem chainsGo_covers (m : SnarlManager) (fuel : Nat) :
    ∀ (kids seen : List Nat) (acc : List (List Nat)),
      (∀ x ∈ seen, ∃ ch ∈ acc, x ∈ ch) →
      ∀ c ∈ kids, ∃ ch ∈ chainsGo m fuel kids seen acc, c ∈ ch := by
  intro kids
  induction kids with
  | nil => intro seen acc _ c hc; cases hc
  | cons k rest ih =>
    intro seen acc hinv c hc
    simp only [chainsGo]
    by_cases hk : k ∈ seen
    · rw [if_pos hk]
      rcases List.mem_cons.mp hc with rfl | hc'
      · obtain ⟨ch, hch, hx⟩ := hinv c hk
        exact ⟨ch, chainsGo_acc_mono m fuel rest seen acc ch hch, hx⟩
      · exact ih seen acc hinv c hc'
    · rw [if_neg hk]
      obtain ⟨b1, b3⟩ := buildChain_spec m fuel k seen
      have hinv' : ∀ x ∈ (buildChain m fuel k seen).2,
          ∃ ch ∈ acc ++ [(buildChain m fuel k seen).1], x ∈ ch := by
        intro x hx
        rcases b3 x hx with hs | hc1
        · obtain ⟨ch, hch, hxx⟩ := hinv x hs
          exact ⟨ch, List.mem_append_left _ hch, hxx⟩
        · exact ⟨_, List.mem_append_right _ (by simp), hc1⟩
      rcases List.mem_cons.mp hc with rfl | hc'
      · exact ⟨_, chainsGo_acc_mono m fuel rest _ _ _ (List.mem_append_right _ (by simp)), b1⟩
      · exact ih _ _ hinv' c hc'

/-- C5 (amended): every child of the queried snarl appears in at least one
chain returned by chains_of, for any manager, queried snarl and fuel; the
full partition property is refuted by the counterexample. -/
theorem C5_chains_cover_amended (m : SnarlManager) (s : Option Nat) (fuel : Nat)
    (c : Nat) (hc : c ∈ children_of m s) :
    ∃ ch ∈ chains_of m s fuel, c ∈ ch :=
  chainsGo_covers m fuel (children_of m s) [] [] (by intro x hx; cases hx) c hc

/-- C5 witness: child 1 of snarl 0 in the manager m4 appears in a chain
returned by chains_of. -/
theorem C5_chains_cover_witness : ∃ ch ∈ chains_of m4 (some 0) 10, 1 ∈ ch :=
  C5_chains_cover_amended m4 (some 0) 10 1 (by decide)

/-! Round trip analysis of the chain walker for C6. -/

theorem next_in_chain_eq (m : SnarlManager) (bd : SnarlBd) (b : Bool) (i j : Nat)
    (hm : manage m bd = some i)
    (hn : (if b then snarl_sharing_start m i else snarl_sharing_end m i) = some j) :
    next_in_chain m { node_id := 0, snarl := some bd, backward := b } =
      some { node_id := 0,
             snarl := some ⟨(m.snarls.getD j dfltRec).start_, (m.snarls.getD j dfltRec).end_⟩,
             backward :=
               if b then
                 decide ((m.snarls.getD j dfltRec).end_.node_id =
                   (m.snarls.getD i dfltRec).start_.node_id)
               else
                 decide ((m.snarls.getD j dfltRec).start_.node_id ≠
                   (m.snarls.getD i dfltRec).end_.node_id) } := by
  simp only [next_in_chain, Option.getD_some, hm, hn]
  simp

theorem snarl_sharing_start_eq (m : SnarlManager) (j i : Nat) (T : SnarlRec)
    (hT : m.snarls.getD j dfltRec = T)
    (hlook : lookA m.snarl_into (T.start_.node_id, !T.start_.backward) = some i)
    (hij : i ≠ j) : snarl_sharing_start m j = some i := by
  simp only [snarl_sharing_start, into_which_snarl, hT, hlook]
  simp [hij]

theorem snarl_sharing_end_eq (m : SnarlManager) (j i : Nat) (T : SnarlRec)
    (hT : m.snarls.getD j dfltRec = T)
    (hlook : lookA m.snarl_into (T.end_.node_id, T.end_.backward) = some i)
    (hij : i ≠ j) : snarl_sharing_end m j = some i := by
  simp only [snarl_sharing_end, into_which_snarl, hT, hlook]
  simp [hij]

/-- C6 (amended): the round trip prev_in_chain after next_in_chain is the
identity on a snarl visit with flag b to the record S at index i whose
out-side neighbor is the record T at index j, provided index_of maps the
keys of S and T to i and j, the matched snarl_into entry is one of the two
canonical entries of T, the snarl_into entry on the out side of S itself
still maps to i (it can be overwritten, which the counterexample
exploits), and S and T each have distinct boundary node ids. -/
theorem C6_roundtrip_amended (m : SnarlManager) (i j : Nat) (b : Bool) (S T : SnarlRec)
    (hS : m.snarls.getD i dfltRec = S) (hT : m.snarls.getD j dfltRec = T)
    (hij : i ≠ j)
    (hmi : lookA m.index_of S.key_form = some i)
    (hmj : lookA m.index_of T.key_form = some j)
    (hnb : (if b then snarl_sharing_start m i else snarl_sharing_end m i) = some j)
    (hshape :
      ((T.start_.node_id, T.start_.backward) : Int × Bool) =
          (if b then (S.start_.node_id, !S.start_.backward)
           else (S.end_.node_id, S.end_.backward)) ∨
      ((T.end_.node_id, !T.end_.backward) : Int × Bool) =
          (if b then (S.start_.node_id, !S.start_.backward)
           else (S.end_.node_id, S.end_.backward)))
    (hback : lookA m.snarl_into
        (if b then (S.start_.node_id, S.start_.backward)
         else (S.end_.node_id, !S.end_.backward)) = some i)
    (hDS : S.start_.node_id ≠ S.end_.node_id)
    (hDT : T.start_.node_id ≠ T.end_.node_id) :
    (next_in_chain m { node_id := 0, snarl := some ⟨S.start_, S.end_⟩, backward := b }).bind
      (prev_in_chain m) =
    some { node_id := 0, snarl := some ⟨S.start_, S.end_⟩, backward := b } := by
  have hmi' : manage m (⟨S.start_, S.end_⟩ : SnarlBd) = some i := hmi
  have hmj' : manage m (⟨T.start_, T.end_⟩ : SnarlBd) = some j := hmj
  have h1 := next_in_chain_eq m ⟨S.start_, S.end_⟩ b i j hmi' hnb
  rw [hS, hT] at h1
  rw [h1, Option.some_bind, prev_in_chain]
  cases b with
  | false =>
    simp only [Bool.false_eq_true, if_false] at hshape hback ⊢
    rcases hshape with hsh | hsh
    · rw [Prod.mk.injEq] at hsh
      obtain ⟨e1, e2⟩ := hsh
      have hflag : decide (T.start_.node_id ≠ S.end_.node_id) = false := by
        simp [e1]
      rw [hflag]
      have hss : snarl_sharing_start m j = some i := by
        refine snarl_sharing_start_eq m j i T hT ?_ hij
        rw [e1, e2]
        exact hback
      have h2 := next_in_chain_eq m ⟨T.start_, T.end_⟩ true j i hmj'
        (by simpa using hss)
      rw [hS, hT] at h2
      have hflag2 : decide (S.end_.node_id = T.start_.node_id) = true := by
        simp [e1]
      rw [hflag2] at h2
      simp only [reverseV, Bool.not_false]
      rw [h2]
      simp [reverseV]
    · rw [Prod.mk.injEq] at hsh
      obtain ⟨e1, e2⟩ := hsh
      have e2' : T.end_.backward = !S.end_.backward := by
        cases hb : T.end_.backward <;> cases hb2 : S.end_.backward <;>
          simp [hb, hb2] at e2 ⊢
      have hflag : decide (T.start_.node_id ≠ S.end_.node_id) = true := by
        have hne : T.start_.node_id ≠ S.end_.node_id := by
          rw [← e1]
          exact hDT
        simp [hne]
      rw [hflag]
      have hse : snarl_sharing_end m j = some i := by
        refine snarl_sharing_end_eq m j i T hT ?_ hij
        rw [e1, e2']
        simpa using hback
      have h2 := next_in_chain_eq m ⟨T.start_, T.end_⟩ false j i hmj'
        (by simpa using hse)
      rw [hS, hT] at h2
      have hflag2 : decide (S.start_.node_id ≠ T.end_.node_id) = true := by
        have hne : S.start_.node_id ≠ T.end_.node_id := by
          rw [e1]
          exact hDS
        simp [hne]
      rw [hflag2] at h2
      simp only [reverseV, Bool.not_true]
      rw [h2]
      simp [reverseV]
  | true =>
    simp only [if_true] at hshape hback ⊢
    rcases hshape with hsh | hsh
    · rw [Prod.mk.injEq] at hsh
      obtain ⟨e1, e2⟩ := hsh
      have hflag : decide (T.end_.node_id = S.start_.node_id) = false := by
        have hne : T.end_.node_id ≠ S.start_.node_id := by
          rw [← e1]
          exact fun hh => hDT hh.symm
        simp [hne]
      rw [hflag]
      have hss : snarl_sharing_start m j = some i := by
        refine snarl_sharing_start_eq m j i T hT ?_ hij
        rw [e1, e2]
        simpa using hback
      have h2 := next_in_chain_eq m ⟨T.start_, T.end_⟩ true j i hmj'
        (by simpa using hss)
      rw [hS, hT] at h2
      have hflag2 : decide (S.end_.node_id = T.start_.node_id) = false := by
        have hne : S.end_.node_id ≠ T.start_.node_id := by
          rw [e1]
          exact fun hh => hDS hh.symm
        simp [hne]
      rw [hflag2] at h2
      simp only [reverseV, Bool.not_false]
      rw [h2]
      simp [reverseV]
    · rw [Prod.mk.injEq] at hsh
      obtain ⟨e1, e2⟩ := hsh
      have e2' : T.end_.backward = S.start_.backward := by
        cases hb : T.end_.backward <;> cases hb2 : S.start_.backward <;>
          simp [hb, hb2] at e2 ⊢
      have hflag : decide (T.end_.node_id = S.start_.node_id) = true := by
        simp [e1]
      rw [hflag]
      have hse : snarl_sharing_end m j = some i := by
        refine snarl_sharing_end_eq m j i T hT ?_ hij
        rw [e1, e2']
        exact hback
      have h2 := next_in_chain_eq m ⟨T.start_, T.end_⟩ false j i hmj'
        (by simpa using hse)
      rw [hS, hT] at h2
      have hflag2 : decide (S.start_.node_id ≠ T.end_.node_id) = false := by
        simp [e1]
      rw [hflag2] at h2
      simp only [reverseV, Bool.not_true]
      rw [h2]
      simp [reverseV]

/-- C6 witness: in the manager mAB the round trip is the identity on the
forward visit to recA, whose neighbor recB exists. -/
theorem C6_roundtrip_witness :
    (next_in_chain mAB
        { node_id := 0, snarl := some ⟨recA.start_, recA.end_⟩, backward := false }).bind
      (prev_in_chain mAB) =
    some { node_id := 0, snarl := some ⟨recA.start_, recA.end_⟩, backward := false } :=
  C6_roundtrip_amended mAB 0 1 false recA recB (by decide) (by decide) (by decide)
    (by decide) (by decide) (by decide) (by decide) (by decide) (by decide) (by decide)

/-! Content enumeration (shallow_contents and deep_contents) for C8. -/

/-- Edge record of the backing graph (protobuf Edge): the two endpoint
node ids and the from_start and to_end orientation flags. -/
structure GEdge where
  from_ : Int
  to_ : Int
  from_start : Bool
  to_end : Bool
deriving DecidableEq, Repr

/-- Backing graph as used by the content enumeration: nodes are identified
with their ids (get_node is the identity) and edgesOf models
edges_of_node. The graph is an external collaborator of the core. -/
structure VGGraph where
  edgesOf : Int → List GEdge

/-- State of the content DFS: pending stack, the already_stacked set, and
the accumulated node and edge result sets. -/
structure CState where
  stack : List Int
  stacked : Finset Int
  nodes : Finset Int
  edges : Finset GEdge
deriving DecidableEq

/-- Stack a node unless it was already stacked. -/
def pushNew (x : Int) (st : CState) : CState :=
  if x ∈ st.stacked then st
  else { st with stack := x :: st.stack, stacked := insert x st.stacked }

/-- Start-boundary admission test of shallow_contents and deep_contents:
does the edge point into the snarl across the start, and which node lies
on its far end. -/
def admitStart (s : SnarlRec) (e : GEdge) : Option Int :=
  if e.from_ = s.start_.node_id ∧ e.from_start = s.start_.backward then some e.to_
  else if e.to_ = s.start_.node_id ∧ e.to_end ≠ s.start_.backward then some e.from_
  else none

/-- End-boundary admission test of shallow_contents and deep_contents. -/
def admitEnd (s : SnarlRec) (e : GEdge) : Option Int :=
  if e.from_ = s.end_.node_id ∧ e.from_start ≠ s.end_.backward then some e.to_
  else if e.to_ = s.end_.node_id ∧ e.to_end = s.end_.backward then some e.from_
  else none

/-- Boundary loop shared by both content enumerations: admit the edges
that point into the snarl, record them, and stack their far nodes. -/
def admitEdges (adm : GEdge → Option Int) : List GEdge → CState → CState
  | [], st => st
  | e :: rest, st =>
    match adm e with
    | some other => admitEdges adm rest (pushNew other { st with edges := insert e st.edges })
    | none => admitEdges adm rest st

/-- Edge loop of one shallow DFS step at node n: an edge is traversed away
from n only if the matching side of n does not point into a child snarl
(hasFwd, hasBwd tell whether into_which_snarl found one). -/
def shallowEdges (n : Int) (hasFwd hasBwd : Bool) : List GEdge → CState → CState
  | [], st => st
  | e :: rest, st =>
    if e.from_ = n then
      if (e.from_start && !hasBwd) || (!e.from_start && !hasFwd) then
        shallowEdges n hasFwd hasBwd rest (pushNew e.to_ { st with edges := insert e st.edges })
      else shallowEdges n hasFwd hasBwd rest st
    else
      if (e.to_end && !hasFwd) || (!e.to_end && !hasBwd) then
        shallowEdges n hasFwd hasBwd rest (pushNew e.from_ { st with edges := insert e st.edges })
      else shallowEdges n hasFwd hasBwd rest st

/-- One shallow DFS step: record the popped node, hop over child snarls on
either orientation by stacking their opposite boundary node, then run the
edge loop. -/
def shallowStep (m : SnarlManager) (G : VGGraph) (n : Int) (st : CState) : CState :=
  let fwd := into_which_snarl m n false
  let bwd := into_which_snarl m n true
  let st0 := { st with nodes := insert n st.nodes }
  let st1 :=
    match fwd with
    | some f =>
      pushNew (if (m.snarls.getD f dfltRec).start_.node_id = n
        then (m.snarls.getD f dfltRec).end_.node_id
        else (m.snarls.getD f dfltRec).start_.node_id) st0
    | none => st0
  let st2 :=
    match bwd with
    | some bded =>
      pushNew (if (m.snarls.getD bded dfltRec).end_.node_id = n
        then (m.snarls.getD bded dfltRec).start_.node_id
        else (m.snarls.getD bded dfltRec).end_.node_id) st1
    | none => st1
  shallowEdges n fwd.isSome bwd.isSome (G.edgesOf n) st2

/-- Shallow DFS loop with fuel. -/
def shallowLoop (m : SnarlManager) (G : VGGraph) : Nat → CState → CState
  | 0, st => st
  | fuel + 1, st =>
    match st.stack with
    | [] => st
    | n :: rest => shallowLoop m G fuel (shallowStep m G n { st with stack := rest })

/-- SnarlManager::shallow_contents with a fuel bound on the DFS loop. -/
def shallow_contents (m : SnarlManager) (G : VGGraph) (s : SnarlRec)
    (include_boundary_nodes : Bool) (fuel : Nat) : Finset Int × Finset GEdge :=
  let st0 : CState :=
    { stack := [],
      stacked := insert s.start_.node_id (insert s.end_.node_id ∅),
      nodes := if include_boundary_nodes
        then insert s.start_.node_id (insert s.end_.node_id ∅) else ∅,
      edges := ∅ }
  let st1 := admitEdges (admitStart s) (G.edgesOf s.start_.node_id) st0
  let st2 := admitEdges (admitEnd s) (G.edgesOf s.end_.node_id) st1
  let st3 := shallowLoop m G fuel st2
  (st3.nodes, st3.edges)

/-- Edge loop of one deep DFS step: record every incident edge and stack
its far node. -/
def deepEdges (n : Int) : List GEdge → CState → CState
  | [], st => st
  | e :: rest, st =>
    deepEdges n rest
      (pushNew (if e.from_ = n then e.to_ else e.from_) { st with edges := insert e st.edges })

/-- One deep DFS step: record the popped node and take every edge. -/
def deepStep (G : VGGraph) (n : Int) (st : CState) : CState :=
  deepEdges n (G.edgesOf n) { st with nodes := insert n st.nodes }

/-- Deep DFS loop with fuel. -/
def deepLoop (G : VGGraph) : Nat → CState → CState
  | 0, st => st
  | fuel + 1, st =>
    match st.stack with
    | [] => st
    | n :: rest => deepLoop G fuel (deepStep G n { st with stack := rest })

/-- SnarlManager::deep_contents with a fuel bound on the DFS loop; the
body reads no manager index, so the manager is not a parameter here. -/
def deep_contents (G : VGGraph) (s : SnarlRec) (include_boundary_nodes : Bool)
    (fuel : Nat) : Finset Int × Finset GEdge :=
  let st0 : CState :=
    { stack := [],
      stacked := insert s.start_.node_id (insert s.end_.node_id ∅),
      nodes := if include_boundary_nodes
        then insert s.start_.node_id (insert s.end_.node_id ∅) else ∅,
      edges := ∅ }
  let st1 := admitEdges (admitStart s) (G.edgesOf s.start_.node_id) st0
  let st2 := admitEdges (admitEnd s) (G.edgesOf s.end_.node_id) st1
  let st3 := deepLoop G fuel st2
  (st3.nodes, st3.edges)

/-- Relation between a run of the content DFS without boundary nodes and
the run with them: all traversal state coincides, only the result node
set carries the two extra boundary nodes. -/
def CRel (a b : Int) (st st' : CState) : Prop :=
  st'.stack = st.stack ∧ st'.stacked = st.stacked ∧ st'.edges = st.edges ∧
  st'.nodes = insert a (insert b st.nodes)

theorem pushNew_rel (a b x : Int) (st st' : CState) (h : CRel a b st st') :
    CRel a b (pushNew x st) (pushNew x st') := by
  obtain ⟨h1, h2, h3, h4⟩ := h
  unfold pushNew
  rw [h2]
  by_cases hx : x ∈ st.stacked
  · simp only [if_pos hx]
    exact ⟨h1, h2, h3, h4⟩
  · simp only [if_neg hx]
    exact ⟨by simp [h1], by simp [h2], by simp [h3], by simp [h4]⟩

theorem admitEdges_rel (a b : Int) (adm : GEdge → Option Int) (l : List GEdge) :
    ∀ (st st' : CState), CRel a b st st' →
      CRel a b (admitEdges adm l st) (admitEdges adm l st') := by
  induction l with
  | nil => intro st st' h; exact h
  | cons e rest ih =>
    intro st st' h
    obtain ⟨h1, h2, h3, h4⟩ := h
    simp only [admitEdges]
    cases hadm : adm e with
    | none => exact ih st st' ⟨h1, h2, h3, h4⟩
    | some other =>
      refine ih _ _ (pushNew_rel a b other _ _ ?_)
      exact ⟨h1, h2, by simp [h3], h4⟩

theorem shallowEdges_rel (a b n : Int) (hf hb : Bool) (l : List GEdge) :
    ∀ (st st' : CState), CRel a b st st' →
      CRel a b (shallowEdges n hf hb l st) (shallowEdges n hf hb l st') := by
  induction l with
  | nil => intro st st' h; exact h
  | cons e rest ih =>
    intro st st' h
    obtain ⟨h1, h2, h3, h4⟩ := h
    simp only [shallowEdges]
    by_cases hfe : e.from_ = n
    · rw [if_pos hfe, if_pos hfe]
      by_cases hcond : ((e.from_start && !hb) || (!e.from_start && !hf)) = true
      · rw [if_pos hcond, if_pos hcond]
        refine ih _ _ (pushNew_rel a b e.to_ _ _ ?_)
        exact ⟨h1, h2, by simp [h3], h4⟩
      · rw [if_neg hcond, if_neg hcond]
        exact ih st st' ⟨h1, h2, h3, h4⟩
    · rw [if_neg hfe, if_neg hfe]
      by_cases hcond : ((e.to_end && !hf) || (!e.to_end && !hb)) = true
      · rw [if_pos hcond, if_pos hcond]
        refine ih _ _ (pushNew_rel a b e.from_ _ _ ?_)
        exact ⟨h1, h2, by simp [h3], h4⟩
      · rw [if_neg hcond, if_neg hcond]
        exact ih st st' ⟨h1, h2, h3, h4⟩

theorem shallowStep_rel (a b : Int) (m : SnarlManager) (G : VGGraph) (n : Int)
    (st st' : CState) (h : CRel a b st st') :
    CRel a b (shallowStep m G n st) (shallowStep m G n st') := by
  obtain ⟨h1, h2, h3, h4⟩ := h
  have hbase : CRel a b { st with nodes := insert n st.nodes }
      { st' with nodes := insert n st'.nodes } := by
    refine ⟨h1, h2, h3, ?_⟩
    simp only [h4]
    rw [Finset.Insert.comm n a, Finset.Insert.comm n b]
  simp only [shallowStep]
  cases hfwd : into_which_snarl m n false with
  | none =>
    cases hbwd : into_which_snarl m n true with
    | none => exact shallowEdges_rel a b n _ _ _ _ _ hbase
    | some bded =>
      exact shallowEdges_rel a b n _ _ _ _ _ (pushNew_rel a b _ _ _ hbase)
  | some f =>
    cases hbwd : into_which_snarl m n true with
    | none =>
      exact shallowEdges_rel a b n _ _ _ _ _ (pushNew_rel a b _ _ _ hbase)
    | some bded =>
      exact shallowEdges_rel a b n _ _ _ _ _
        (pushNew_rel a b _ _ _ (pushNew_rel a b _ _ _ hbase))

theorem shallowLoop_rel (a b : Int) (m : SnarlManager) (G : VGGraph) :
    ∀ (fuel : Nat) (st st' : CState), CRel a b st st' →
      CRel a b (shallowLoop m G fuel st) (shallowLoop m G fuel st') := by
  intro fuel
  induction fuel with
  | zero => intro st st' h; exact h
  | succ f ih =>
    intro st st' h
    obtain ⟨h1, h2, h3, h4⟩ := h
    simp only [shallowLoop, h1]
    cases hs : st.stack with
    | nil => exact ⟨h1, h2, h3, h4⟩
    | cons n rest =>
      refine ih _ _ (shallowStep_rel a b m G n _ _ ?_)
      exact ⟨by simp, h2, h3, h4⟩

theorem deepEdges_rel (a b n : Int) (l : List GEdge) :
    ∀ (st st' : CState), CRel a b st st' →
      CRel a b (deepEdges n l st) (deepEdges n l st') := by
  induction l with
  | nil => intro st st' h; exact h
  | cons e rest ih =>
    intro st st' h
    obtain ⟨h1, h2, h3, h4⟩ := h
    simp only [deepEdges]
    refine ih _ _ (pushNew_rel a b _ _ _ ?_)
    exact ⟨h1, h2, by simp [h3], h4⟩

theorem deepStep_rel (a b : Int) (G : VGGraph) (n : Int)
    (st st' : CState) (h : CRel a b st st') :
    CRel a b (deepStep G n st) (deepStep G n st') := by
  obtain ⟨h1, h2, h3, h4⟩ := h
  have hbase : CRel a b { st with nodes := insert n st.nodes }
      { st' with nodes := insert n st'.nodes } := by
    refine ⟨h1, h2, h3, ?_⟩
    simp only [h4]
    rw [Finset.Insert.comm n a, Finset.Insert.comm n b]
  exact deepEdges_rel a b n _ _ _ hbase

theorem deepLoop_rel (a b : Int) (G : VGGraph) :
    ∀ (fuel : Nat) (st st' : CState), CRel a b st st' →
      CRel a b (deepLoop G fuel st) (deepLoop G fuel st') := by
  intro fuel
  induction fuel with
  | zero => intro st st' h; exact h
  | succ f ih =>
    intro st st' h
    obtain ⟨h1, h2, h3, h4⟩ := h
    simp only [deepLoop, h1]
    cases hs : st.stack with
    | nil => exact ⟨h1, h2, h3, h4⟩
    | cons n rest =>
      refine ih _ _ (deepStep_rel a b G n _ _ ?_)
      exact ⟨by simp, h2, h3, h4⟩

/-- C8: for both shallow_contents and deep_contents the edge set does not
depend on include_boundary_nodes, and the node set with the flag on is the
node set with the flag off plus the start and end nodes of the snarl. -/
theorem C8_contents_boundary_flag (m : SnarlManager) (G : VGGraph) (s : SnarlRec)
    (fuel : Nat) :
    (shallow_contents m G s true fuel).2 = (shallow_contents m G s false fuel).2 ∧
    (shallow_contents m G s true fuel).1 =
      insert s.start_.node_id (insert s.end_.node_id (shallow_contents m G s false fuel).1) ∧
    (deep_contents G s true fuel).2 = (deep_contents G s false fuel).2 ∧
    (deep_contents G s true fuel).1 =
      insert s.start_.node_id (insert s.end_.node_id (deep_contents G s false fuel).1) := by
  have hbase : CRel s.start_.node_id s.end_.node_id
      { stack := [],
        stacked := insert s.start_.node_id (insert s.end_.node_id ∅),
        nodes := (∅ : Finset Int), edges := (∅ : Finset GEdge) }
      { stack := [],
        stacked := insert s.start_.node_id (insert s.end_.node_id ∅),
        nodes := insert s.start_.node_id (insert s.end_.node_id ∅),
        edges := (∅ : Finset GEdge) } := ⟨rfl, rfl, rfl, rfl⟩
  have hsh := shallowLoop_rel s.start_.node_id s.end_.node_id m G fuel _ _
    (admitEdges_rel _ _ (admitEnd s) (G.edgesOf s.end_.node_id) _ _
      (admitEdges_rel _ _ (admitStart s) (G.edgesOf s.start_.node_id) _ _ hbase))
  have hdp := deepLoop_rel s.start_.node_id s.end_.node_id G fuel _ _
    (admitEdges_rel _ _ (admitEnd s) (G.edgesOf s.end_.node_id) _ _
      (admitEdges_rel _ _ (admitStart s) (G.edgesOf s.start_.node_id) _ _ hbase))
  obtain ⟨_, _, he, hn⟩ := hsh
  obtain ⟨_, _, he', hn'⟩ := hdp
  exact ⟨he, hn, he', hn'⟩

/-! Net graph follow_edges for C7. -/

/-- Handle of the backing handle graph: node id plus reverse flag. -/
abbrev Handle := Int × Bool

/-- HandleGraph::flip on the backing graph. -/
def hflip (h : Handle) : Handle := (h.1, !h.2)

/-- Backing handle graph seen through its follow_edges contract: adjacency
lists per handle and direction (true selects the left side). -/
structure BackGraph where
  adj : Handle → Bool → List Handle

/-- Net graph state over one snarl: boundary handles, unary child
boundaries, the two chain maps and the connectivity triples. The
connectivity map is modelled as a total function: the source map is
populated for every id the chain and unary branches can look up. -/
structure NetGraph where
  start : Handle
  end_ : Handle
  unary_boundaries : List Handle
  chain_ends_by_start : List (Handle × Handle)
  chain_end_rewrites : List (Handle × Handle)
  connectivity : Int → Bool × Bool × Bool
  use_internal_connectivity : Bool

/-- Emission state of one follow_edges call: the dedup set, the sequence
of handles passed to the iteratee so far, and whether the iteratee has
asked to stop (after which the source call chain returns false without
further emissions). -/
structure FES where
  seen : List Handle
  trace : List Handle
  stopped : Bool

/-- The chain tail rewrite performed at the top of handle_edge and
flip_and_handle_edge: a handle reading into a chain tail is warped to the
chain head, in either orientation. -/
def rewriteHandle (ng : NetGraph) (other : Handle) : Handle :=
  match lookA ng.chain_end_rewrites other with
  | some hh => hh
  | none =>
    match lookA ng.chain_end_rewrites (hflip other) with
    | some hh => hflip hh
    | none => other

/-- One emission through handle_edge (doFlip false) or
flip_and_handle_edge (doFlip true): rewrite, optionally flip, dedup
against the shared seen set, and invoke the iteratee, recording its
verdict in the stopped flag. -/
def emitOne (ng : NetGraph) (vis : Handle → Bool) (doFlip : Bool) (st : FES)
    (other : Handle) : FES :=
  if st.stopped then st
  else
    if (if doFlip then hflip (rewriteHandle ng other) else rewriteHandle ng other) ∈ st.seen
    then st
    else
      { seen := (if doFlip then hflip (rewriteHandle ng other) else rewriteHandle ng other)
          :: st.seen,
        trace := st.trace ++
          [if doFlip then hflip (rewriteHandle ng other) else rewriteHandle ng other],
        stopped := !vis (if doFlip then hflip (rewriteHandle ng other)
          else rewriteHandle ng other) }

/-- One backing follow_edges call feeding every adjacent handle through
the emission lambda; the stopped flag makes the remaining feed a no-op,
which matches the backing graph honoring a false return. -/
def followAll (ng : NetGraph) (G : BackGraph) (vis : Handle → Bool) (doFlip : Bool)
    (h : Handle) (gl : Bool) (st : FES) : FES :=
  (G.adj h gl).foldl (emitOne ng vis doFlip) st

/-- A backing call guarded by a connectivity flag, as in the chain and
unary branches of the source; the early return on a false iteratee is
carried by the stopped flag. -/
def condFollow (c : Bool) (ng : NetGraph) (G : BackGraph) (vis : Handle → Bool)
    (doFlip : Bool) (h : Handle) (gl : Bool) (st : FES) : FES :=
  if c then followAll ng G vis doFlip h gl st else st

/-- Final emission state of NetGraph::follow_edges, with the case analysis
of the source: snarl boundary, chain head in either orientation, unary
boundary in either orientation, ordinary content node. -/
def netFE_state (ng : NetGraph) (G : BackGraph) (h : Handle) (go_left : Bool)
    (vis : Handle → Bool) : FES :=
  let st0 : FES := ⟨[], [], false⟩
  if (h = ng.end_ ∧ go_left = false) ∨ (h = hflip ng.end_ ∧ go_left = true) ∨
      (h = hflip ng.start ∧ go_left = false) ∨ (h = ng.start ∧ go_left = true) then
    st0
  else if (lookA ng.chain_ends_by_start h).isSome then
    let ce := (lookA ng.chain_ends_by_start h).getD h
    let c := ng.connectivity h.1
    if go_left then
      condFollow c.2.2 ng G vis false h true (condFollow c.2.1 ng G vis true ce false st0)
    else
      condFollow c.2.2 ng G vis false ce false (condFollow c.1 ng G vis true h true st0)
  else if (lookA ng.chain_ends_by_start (hflip h)).isSome then
    let ce := (lookA ng.chain_ends_by_start (hflip h)).getD h
    let c := ng.connectivity h.1
    if go_left then
      condFollow c.2.2 ng G vis true ce false (condFollow c.1 ng G vis true h false st0)
    else
      condFollow c.2.2 ng G vis false h false (condFollow c.2.1 ng G vis false ce false st0)
  else if h ∈ ng.unary_boundaries then
    let c := ng.connectivity h.1
    if go_left then
      condFollow (!ng.use_internal_connectivity) ng G vis false h true st0
    else
      condFollow (c.1 || c.2.1 || c.2.2) ng G vis true h true st0
  else if hflip h ∈ ng.unary_boundaries then
    let c := ng.connectivity h.1
    if go_left then
      condFollow (c.1 || c.2.1 || c.2.2) ng G vis false h false st0
    else
      condFollow (!ng.use_internal_connectivity) ng G vis true h false st0
  else
    followAll ng G vis false h go_left st0

/-- NetGraph::follow_edges: the returned boolean (false exactly when the
iteratee stopped the iteration) paired with the sequence of handles the
iteratee was invoked on. -/
def net_follow_edges (ng : NetGraph) (G : BackGraph) (h : Handle) (go_left : Bool)
    (vis : Handle → Bool) : Bool × List Handle :=
  (!(netFE_state ng G h go_left vis).stopped, (netFE_state ng G h go_left vis).trace)

/-! Invariant carried by every emission state. -/

def FESinv (vis : Handle → Bool) (st : FES) : Prop :=
  st.trace.Nodup ∧ (∀ x ∈ st.trace, x ∈ st.seen) ∧
  st.trace.dropLast.all vis = true ∧ st.stopped = !st.trace.all vis

theorem dropLast_app_single {α : Type} (l : List α) (a : α) :
    (l ++ [a]).dropLast = l := by
  induction l with
  | nil => rfl
  | cons x rest ih =>
    cases rest with
    | nil => rfl
    | cons y t => simp [List.dropLast, ih]

theorem all_app_single (l : List Handle) (a : Handle) (p : Handle → Bool) :
    (l ++ [a]).all p = (l.all p && p a) := by
  induction l with
  | nil => simp
  | cons x rest ih => simp [List.all_cons, ih, Bool.and_assoc]

theorem nodup_app_single {α : Type} (l : List α) (a : α) (hn : l.Nodup) (ha : a ∉ l) :
    (l ++ [a]).Nodup := by
  induction l with
  | nil => simp
  | cons x rest ih =>
    rw [List.cons_append, List.nodup_cons]
    constructor
    · intro hc
      rcases List.mem_append.mp hc with hc1 | hc2
      · exact (List.nodup_cons.mp hn).1 hc1
      · simp at hc2
        subst hc2
        exact ha (by simp)
    · exact ih (List.nodup_cons.mp hn).2 (fun hc => ha (List.mem_cons_of_mem _ hc))

theorem emitOne_inv (ng : NetGraph) (vis : Handle → Bool) (f : Bool) (st : FES)
    (other : Handle) (h : FESinv vis st) : FESinv vis (emitOne ng vis f st other) := by
  obtain ⟨hnd, hsub, hdl, hst⟩ := h
  unfold emitOne
  by_cases hstop : st.stopped = true
  · rw [if_pos hstop]
    exact ⟨hnd, hsub, hdl, hst⟩
  · rw [if_neg hstop]
    have hall : st.trace.all vis = true := by
      cases hv : st.trace.all vis
      · rw [hv] at hst
        simp at hst
        exact absurd hst hstop
      · rfl
    by_cases hmem :
        (if f then hflip (rewriteHandle ng other) else rewriteHandle ng other) ∈ st.seen
    · rw [if_pos hmem]
      exact ⟨hnd, hsub, hdl, hst⟩
    · rw [if_neg hmem]
      refine ⟨?_, ?_, ?_, ?_⟩
      · exact nodup_app_single _ _ hnd (fun hc => hmem (hsub _ hc))
      · intro x hx
        rcases List.mem_append.mp hx with hx1 | hx2
        · exact List.mem_cons_of_mem _ (hsub x hx1)
        · simp at hx2
          subst hx2
          exact List.mem_cons_self _ _
      · rw [dropLast_app_single]
        exact hall
      · rw [all_app_single, hall]
        simp

theorem followAll_inv (ng : NetGraph) (G : BackGraph) (vis : Handle → Bool) (f : Bool)
    (h : Handle) (gl : Bool) :
    ∀ (st : FES), FESinv vis st → FESinv vis (followAll ng G vis f h gl st) := by
  show ∀ st, FESinv vis st → FESinv vis ((G.adj h gl).foldl (emitOne ng vis f) st)
  induction G.adj h gl with
  | nil => intro st hs; exact hs
  | cons x rest ih =>
    intro st hs
    exact ih _ (emitOne_inv ng vis f st x hs)

theorem condFollow_inv (c : Bool) (ng : NetGraph) (G : BackGraph) (vis : Handle → Bool)
    (f : Bool) (h : Handle) (gl : Bool) (st : FES) (hs : FESinv vis st) :
    FESinv vis (condFollow c ng G vis f h gl st) := by
  unfold condFollow
  split
  · exact followAll_inv ng G vis f h gl st hs
  · exact hs

theorem netFE_state_inv (ng : NetGraph) (G : BackGraph) (h : Handle) (go_left : Bool)
    (vis : Handle → Bool) : FESinv vis (netFE_state ng G h go_left vis) := by
  have h0 : FESinv vis ⟨[], [], false⟩ := by
    refine ⟨List.nodup_nil, ?_, rfl, rfl⟩
    intro x hx
    cases hx
  unfold netFE_state
  split_ifs <;>
    first
      | exact h0
      | exact condFollow_inv _ ng G vis _ _ _ _ (condFollow_inv _ ng G vis _ _ _ _ h0)
      | exact condFollow_inv _ ng G vis _ _ _ _ h0
      | exact followAll_inv ng G vis _ _ _ _ h0

/-- C7: within one call of NetGraph::follow_edges the iteratee is never
invoked twice on the same rewritten handle, every invocation before the
last returned true (iteration stops immediately on false), and the
returned boolean is true exactly when every invocation returned true. -/
theorem C7_follow_edges_dedup_stop (ng : NetGraph) (G : BackGraph) (h : Handle)
    (go_left : Bool) (vis : Handle → Bool) :
    (net_follow_edges ng G h go_left vis).2.Nodup ∧
    (net_follow_edges ng G h go_left vis).1 =
      (net_follow_edges ng G h go_left vis).2.all vis ∧
    (net_follow_edges ng G h go_left vis).2.dropLast.all vis = true := by
  obtain ⟨hnd, _, hdl, hst⟩ := netFE_state_inv ng G h go_left vis
  refine ⟨hnd, ?_, hdl⟩
  show (!(netFE_state ng G h go_left vis).stopped) = _
  rw [hst, Bool.not_not]
  rfl
